import Mathlib

/-!
# Verification of `SingleLinkedList` (src/single-linked-list/single-linked-list.h)

A shallow embedding of the C++ `SingleLinkedList<Type>` container, instantiated
at `Type = Int`, together with proofs of the specification claims.

Two levels of modelling are used:

* A value-level model `SLL` records the sequence of element values reachable
  from the sentinel (`elems`) together with the cached element count (`size_`),
  mirroring the data members `head_` / `size_`.  Cursors (`BasicIterator`) are
  modelled by the number of chain positions before the referenced node:
  cursor `0` references the sentinel (`before_begin`), cursor `k ≥ 1`
  references the `k`-th real node.

* A heap-level model (`Mem`, `HList`) makes node addresses and stores explicit,
  in order to state and prove the deep-copy independence property: the copy
  constructor allocates fresh nodes, so mutations of the copy never affect the
  original, and vice versa.

The free comparison operators are embedded over the element sequences that
iteration yields.  `operator==` calls the three-argument `std::equal`, whose
traversal dereferences the right-hand list's cursor past its end whenever the
right-hand sequence is exhausted before the left-hand one; this undefined
behaviour is made explicit by returning `Option Bool`, with `none` marking an
out-of-range cursor access.
-/

namespace SingleLinkedList

/-- Value-level model of `SingleLinkedList<int>`: `elems` is the sequence of
values of the real (non-sentinel) nodes reachable from `head_.next_node`, in
chain order; `size_` mirrors the cached data member `size_`. -/
structure SLL where
  elems : List Int
  size_ : Nat
  deriving DecidableEq

/-- `SingleLinkedList() {}`: the default constructor leaves the sentinel's
next-link null and `size_ = 0`. -/
def SLL.mkEmpty : SLL := ⟨[], 0⟩

/-- `GetSize()`: returns the cached count `size_`. -/
def SLL.GetSize (l : SLL) : Nat := l.size_

/-- `IsEmpty()`: returns `!size_`. -/
def SLL.IsEmpty (l : SLL) : Bool := l.size_ == 0

/-- `Clear()`: deletes nodes from the front until the sentinel's next-link is
null, then sets `size_ = 0`. -/
def SLL.Clear (_ : SLL) : SLL := ⟨[], 0⟩

/-- `PushFront(value)`: links a new node holding `value` in front of the chain
and increments `size_`. -/
def SLL.PushFront (l : SLL) (v : Int) : SLL := ⟨v :: l.elems, l.size_ + 1⟩

/-- `PopFront()`: unlinks and deletes the first real node and decrements
`size_` (undefined on an empty list; `Nat` subtraction models the counter). -/
def SLL.PopFront (l : SLL) : SLL := ⟨l.elems.tail, l.size_ - 1⟩

/-- Cursors are modelled by the number of chain positions before the referenced
node: cursor `0` is the sentinel, cursor `k ≥ 1` the `k`-th real node.
`before_begin()` returns the cursor referencing the sentinel. -/
def SLL.beforeBegin : Nat := 0

/-- `InsertAfter(pos, value)`: allocates a node holding `value` whose successor
is `pos`'s old successor, links it after `pos`'s node and increments `size_`.
For a cursor `k`, the new value appears at position `k` of the sequence. -/
def SLL.InsertAfter (l : SLL) (k : Nat) (v : Int) : SLL :=
  ⟨l.elems.take k ++ v :: l.elems.drop k, l.size_ + 1⟩

/-- `EraseAfter(pos)`: unlinks and deletes the successor of `pos`'s node and
decrements `size_`.  For a cursor `k`, the value at position `k` of the
sequence is removed (undefined when no successor exists). -/
def SLL.EraseAfter (l : SLL) (k : Nat) : SLL :=
  ⟨l.elems.eraseIdx k, l.size_ - 1⟩

/-- `swap(other)`: exchanges the two sentinels' next-links and the two counts. -/
def SLL.swap (a b : SLL) : SLL × SLL :=
  (⟨b.elems, b.size_⟩, ⟨a.elems, a.size_⟩)

/-- The loop body of `FillLinkedList_` after the first iteration: each source
element is written into a fresh node at the current tail pointer `node_ptr`,
appending it to the chain built so far, and `size_` is incremented. -/
def SLL.fillAppend (l : SLL) : List Int → SLL
  | [] => l
  | v :: rest => fillAppend ⟨l.elems ++ [v], l.size_ + 1⟩ rest

/-- `FillLinkedList_(linked_list, it_begin, it_end)`: `node_ptr` starts at the
sentinel's next-link, so the first write replaces the head link (cutting off
any previous chain), and every later write appends at the tail; `size_` is
incremented once per source element.  With an empty source the loop body never
runs and `linked_list` is unchanged. -/
def SLL.FillLinkedList_ (l : SLL) : List Int → SLL
  | [] => l
  | v :: rest => SLL.fillAppend ⟨[v], l.size_ + 1⟩ rest

/-- `SingleLinkedList(std::initializer_list<Type>)`: fills a default-constructed
temporary from the source sequence, then swaps it into `*this` (which was
default-constructed). -/
def SLL.fromInitList (s : List Int) : SLL :=
  (SLL.swap SLL.mkEmpty (SLL.FillLinkedList_ SLL.mkEmpty s)).1

/-- `SingleLinkedList(const SingleLinkedList&)`: fills a default-constructed
temporary from `other.begin() .. other.end()` (which yields `other.elems` in
order), then swaps it into `*this`. -/
def SLL.fromCopy (other : SLL) : SLL :=
  (SLL.swap SLL.mkEmpty (SLL.FillLinkedList_ SLL.mkEmpty other.elems)).1

/-- `operator=` on distinct objects: builds `SingleLinkedList copy(rhs)` and
swaps it with `*this` (the old chain dies with `copy`). -/
def SLL.assign (_this rhs : SLL) : SLL :=
  (SLL.swap _this (SLL.fromCopy rhs)).1

/-- `operator=` when `this == &rhs`: the self-assignment guard returns `*this`
unchanged. -/
def SLL.assignSelf (l : SLL) : SLL := l

/-- The sequence yielded by iterating from `begin()` to `end()`: successive
dereferences of the values of the real nodes, in chain order. -/
def SLL.iterSeq (l : SLL) : List Int := l.elems

/-- The structural invariant of claim C6: the cached count equals the number of
real nodes reachable from the sentinel. -/
def SLL.wf (l : SLL) : Prop := l.size_ = l.elems.length

/-! ## Free comparison operators over element sequences

The operators traverse the element sequences that `begin()`/`end()` yield, so
they are embedded as functions of those sequences. -/

/-- `operator==`: `std::equal(lhs.begin(), lhs.end(), rhs.begin())`.  The
three-argument overload iterates until the *left* range is exhausted,
dereferencing and advancing the right cursor in lockstep without an end check.
When the right-hand list runs out first the right cursor is the null end
cursor and dereferencing it is undefined behaviour, modelled as `none`. -/
def cppEqual : List Int → List Int → Option Bool
  | [], _ => some true
  | _ :: _, [] => none
  | x :: xs, y :: ys => if x = y then cppEqual xs ys else some false

/-- `operator!=`: `!(lhs == rhs)` (undefined whenever `==` is). -/
def cppNe (a b : List Int) : Option Bool := (cppEqual a b).map (fun r => !r)

/-- `operator<`:
`std::lexicographical_compare(lhs.begin(), lhs.end(), rhs.begin(), rhs.end())`:
both ends are checked, so the traversal is total. -/
def lexLt : List Int → List Int → Bool
  | _, [] => false
  | [], _ :: _ => true
  | x :: xs, y :: ys => if x < y then true else if y < x then false else lexLt xs ys

/-- `operator>`: `rhs < lhs`. -/
def cppGt (a b : List Int) : Bool := lexLt b a

/-- `operator<=`: `!(lhs > rhs)`. -/
def cppLe (a b : List Int) : Bool := !cppGt a b

/-- `operator>=`: `!(lhs < rhs)`. -/
def cppGe (a b : List Int) : Bool := !lexLt a b

end SingleLinkedList

namespace SingleLinkedList

/-! ## Supporting lemmas -/

lemma fillAppend_spec (rest : List Int) : ∀ l : SLL,
    SLL.fillAppend l rest = ⟨l.elems ++ rest, l.size_ + rest.length⟩ := by
  induction rest with
  | nil => intro l; simp [SLL.fillAppend]
  | cons v vs ih =>
      intro l
      rw [SLL.fillAppend, ih]
      simp [Nat.add_comm, Nat.add_assoc, Nat.add_left_comm]

lemma FillLinkedList_spec (l : SLL) (s : List Int) :
    SLL.FillLinkedList_ l s =
      if s = [] then l else ⟨s, l.size_ + s.length⟩ := by
  cases s with
  | nil => simp [SLL.FillLinkedList_]
  | cons v vs =>
      simp only [SLL.FillLinkedList_, fillAppend_spec, List.cons_ne_nil, if_neg,
        reduceCtorEq, ite_false]
      simp [Nat.add_comm, Nat.add_assoc, Nat.add_left_comm]

lemma fromInitList_spec (s : List Int) :
    SLL.fromInitList s = ⟨s, s.length⟩ := by
  rw [SLL.fromInitList, FillLinkedList_spec]
  cases s <;> simp [SLL.swap, SLL.mkEmpty]

lemma fromCopy_spec (l : SLL) : SLL.fromCopy l = ⟨l.elems, l.elems.length⟩ := by
  rw [SLL.fromCopy, FillLinkedList_spec]
  cases h : l.elems <;> simp [SLL.swap, SLL.mkEmpty, h]

lemma assign_spec (a b : SLL) : SLL.assign a b = ⟨b.elems, b.elems.length⟩ := by
  rw [SLL.assign, fromCopy_spec, SLL.swap]

lemma lexLt_iff_Lex : ∀ a b : List Int, lexLt a b = true ↔ List.Lex (· < ·) a b := by
  intro a
  induction a with
  | nil =>
      intro b
      cases b with
      | nil => simp [lexLt]
      | cons y ys => simp [lexLt]; exact List.Lex.nil
  | cons x xs ih =>
      intro b
      cases b with
      | nil => simp [lexLt]
      | cons y ys =>
          rw [lexLt]
          by_cases hxy : x < y
          · rw [if_pos hxy]
            exact iff_of_true rfl (List.Lex.rel hxy)
          · by_cases hyx : y < x
            · rw [if_neg hxy, if_pos hyx]
              apply iff_of_false (by simp)
              intro hlex
              cases hlex with
              | cons h => exact lt_irrefl x hyx
              | rel h => exact hxy h
            · have heq : x = y := le_antisymm (not_lt.mp hyx) (not_lt.mp hxy)
              subst heq
              rw [if_neg hxy, if_neg hxy, ih ys]
              constructor
              · exact fun h => List.Lex.cons h
              · intro hlex
                cases hlex with
                | cons h => exact h
                | rel h => exact absurd h hxy

lemma cppEqual_self : ∀ a : List Int, cppEqual a a = some true := by
  intro a
  induction a with
  | nil => rfl
  | cons x xs ih => simp [cppEqual, ih]

lemma cppEqual_eq_none_iff : ∀ a b : List Int,
    cppEqual a b = none ↔ b <+: a ∧ b ≠ a := by
  intro a
  induction a with
  | nil =>
      intro b
      simp only [cppEqual, reduceCtorEq, false_iff]
      rintro ⟨hpre, hne⟩
      exact hne (List.prefix_nil.mp hpre)
  | cons x xs ih =>
      intro b
      cases b with
      | nil =>
          simp only [cppEqual, true_iff]
          exact ⟨List.nil_prefix, by simp⟩
      | cons y ys =>
          rw [cppEqual]
          by_cases hxy : x = y
          · subst hxy
            simp only [if_true, ih ys, List.cons_prefix_cons, true_and]
            constructor
            · rintro ⟨hpre, hne⟩
              exact ⟨hpre, by simpa using hne⟩
            · rintro ⟨hpre, hne⟩
              exact ⟨hpre, fun h => hne (by simpa using h)⟩
          · simp only [if_neg hxy, reduceCtorEq, false_iff, List.cons_prefix_cons]
            rintro ⟨⟨hyx, _⟩, _⟩
            exact hxy hyx.symm

lemma cppEqual_prefix_spec : ∀ a b : List Int, a.length ≤ b.length →
    cppEqual a b = some (decide (a <+: b)) := by
  intro a
  induction a with
  | nil =>
      intro b _
      simp [cppEqual, List.nil_prefix]
  | cons x xs ih =>
      intro b hlen
      cases b with
      | nil => simp at hlen
      | cons y ys =>
          rw [cppEqual]
          by_cases hxy : x = y
          · subst hxy
            rw [if_pos rfl, ih ys (by simpa using hlen)]
            simp [List.cons_prefix_cons]
          · rw [if_neg hxy]
            simp [List.cons_prefix_cons, hxy]

end SingleLinkedList

namespace SingleLinkedList

/-! ## Claim theorems: comparison operators and basic operations -/

/-- Claim C1 (code bug): the spec requires length-sensitive structural
equality, but `operator==` calls the three-argument `std::equal` with no
length guard, so a strict prefix compares equal to the longer list:
`List{1,2} == List{1,2,3}` evaluates to `true` (hence `!=` to `false`), and
evaluating `List{1,2,3} == List{1,2}` dereferences the right cursor past its
end (undefined behaviour, modelled as `none`). -/
theorem claim_C1_prefix_equality_bug :
    cppEqual [1, 2] [1, 2, 3] = some true ∧
    cppNe [1, 2] [1, 2, 3] = some false ∧
    cppEqual [1, 2, 3] [1, 2] = none := by
  decide

/-- Claim C2: constructing a list from a sequence `S` yields
`GetSize() = length S`, and iterating from `begin()` to `end()` yields exactly
`S` in source order. -/
theorem claim_C2_construct_from_sequence : ∀ s : List Int,
    (SLL.fromInitList s).GetSize = s.length ∧ (SLL.fromInitList s).iterSeq = s := by
  intro s
  rw [fromInitList_spec]
  exact ⟨rfl, rfl⟩

/-- Claim C3: `operator<` returns `true` exactly when the left element
sequence is lexicographically less than the right one under `Int`'s order;
in particular `{1,2} < {1,3}`, `{1} < {1,2}` and `{} < {1}`. -/
theorem claim_C3_lexicographic_order :
    (∀ a b : List Int, lexLt a b = true ↔ List.Lex (· < ·) a b) ∧
    lexLt [1, 2] [1, 3] = true ∧ lexLt [1] [1, 2] = true ∧ lexLt [] [1] = true :=
  ⟨lexLt_iff_Lex, by decide, by decide, by decide⟩

/-- Claim C4: `InsertAfter(before_begin(), x)` produces exactly the state
`PushFront(x)` produces: the same element order and the same size. -/
theorem claim_C4_insertAfter_beforeBegin_is_pushFront : ∀ (l : SLL) (v : Int),
    l.InsertAfter SLL.beforeBegin v = l.PushFront v := by
  intro l v
  simp [SLL.InsertAfter, SLL.PushFront, SLL.beforeBegin]

/-- Claim C5: on a non-empty list, `EraseAfter(before_begin())` produces
exactly the state `PopFront()` produces: the same element order and size. -/
theorem claim_C5_eraseAfter_beforeBegin_is_popFront (l : SLL)
    (h : l.elems ≠ []) :
    l.EraseAfter SLL.beforeBegin = l.PopFront := by
  cases l with
  | mk es n =>
      cases es with
      | nil => exact absurd rfl h
      | cons x xs => simp [SLL.EraseAfter, SLL.PopFront, SLL.beforeBegin]

/-- Witness for C5 at the concrete list `{1,2}`. -/
theorem claim_C5_witness :
    (⟨[1, 2], 2⟩ : SLL).elems ≠ [] ∧
    (⟨[1, 2], 2⟩ : SLL).EraseAfter SLL.beforeBegin = (⟨[1, 2], 2⟩ : SLL).PopFront :=
  ⟨by simp, claim_C5_eraseAfter_beforeBegin_is_popFront ⟨[1, 2], 2⟩ (by simp)⟩

/-- Claim C8: the derived comparison operators are exactly the stated
compositions: `!=` is the negation of `==` (propagating its undefinedness),
`>` is the flipped `<`, `<=` is `!(>)` and `>=` is `!(<)`. -/
theorem claim_C8_derived_operators : ∀ a b : List Int,
    cppNe a b = (cppEqual a b).map (fun r => !r) ∧
    cppGt a b = lexLt b a ∧
    cppLe a b = !cppGt a b ∧
    cppGe a b = !lexLt a b :=
  fun _ _ => ⟨rfl, rfl, rfl, rfl⟩

/-- Claim C9: when the left list is at most as long as the right one,
`operator==` terminates without out-of-range access and returns `true` exactly
when the left sequence is a prefix of the right one; in particular the strict
prefix `{1,2}` compares equal to `{1,2,3}`. -/
theorem claim_C9_equality_is_prefix_test (a b : List Int)
    (h : a.length ≤ b.length) :
    (cppEqual a b = some true ↔ a <+: b) ∧
    cppEqual [1, 2] [1, 2, 3] = some true := by
  refine ⟨?_, by decide⟩
  rw [cppEqual_prefix_spec a b h]
  simp

/-- Witness for C9 at the concrete lists `{1}` and `{1,2}`. -/
theorem claim_C9_witness :
    ([1] : List Int).length ≤ ([1, 2] : List Int).length ∧
    ((cppEqual [1] [1, 2] = some true ↔ ([1] : List Int) <+: [1, 2]) ∧
      cppEqual [1, 2] [1, 2, 3] = some true) :=
  ⟨by decide, claim_C9_equality_is_prefix_test [1] [1, 2] (by decide)⟩

/-- Claim C10 as stated is false: `GetSize(A) > GetSize(B)` does not force an
out-of-range access, because an element mismatch stops `std::equal` before the
right cursor runs out: `A = {1,2}`, `B = {2}` has `|A| > |B|` yet the
comparison returns `false` without touching `B`'s end cursor. -/
theorem claim_C10_counterexample :
    ([1, 2] : List Int).length > ([2] : List Int).length ∧
    cppEqual [1, 2] [2] ≠ none := by
  decide

/-- Claim C10 (amended): evaluating `operator==(A, B)` dereferences `B`'s
cursor past its end exactly when `B`'s sequence is a proper prefix of `A`'s;
in particular the comparison is always free of out-of-range access when
`GetSize(A) ≤ GetSize(B)`. -/
theorem claim_C10_amended_ub_characterisation : ∀ a b : List Int,
    (cppEqual a b = none ↔ b <+: a ∧ b ≠ a) ∧
    (a.length ≤ b.length → cppEqual a b ≠ none) := by
  intro a b
  refine ⟨cppEqual_eq_none_iff a b, ?_⟩
  intro h
  rw [cppEqual_prefix_spec a b h]
  simp

/-- Witness for the amended C10 at the concrete lists `{1}` and `{1,2}`. -/
theorem claim_C10_witness :
    ([1] : List Int).length ≤ ([1, 2] : List Int).length ∧
    cppEqual [1] [1, 2] ≠ none :=
  ⟨by decide, (claim_C10_amended_ub_characterisation [1] [1, 2]).2 (by decide)⟩

end SingleLinkedList

namespace SingleLinkedList

/-- Claim C6: the cached count equals the number of real nodes reachable from
the sentinel, and every operation preserves this invariant: empty and sequence
construction, copy construction, `PushFront`, `PopFront` on a non-empty list,
`InsertAfter` at a valid cursor, `EraseAfter` at a cursor with a successor,
`Clear`, `swap`, and copy assignment. -/
theorem claim_C6_size_invariant (l a b : SLL) (s : List Int) (v : Int) (k : Nat)
    (hl : l.wf) (ha : a.wf) (hb : b.wf) (hk : k ≤ l.elems.length) :
    SLL.mkEmpty.wf ∧
    (SLL.fromInitList s).wf ∧
    (SLL.fromCopy l).wf ∧
    (l.PushFront v).wf ∧
    (l.elems ≠ [] → l.PopFront.wf) ∧
    (l.InsertAfter k v).wf ∧
    (k < l.elems.length → (l.EraseAfter k).wf) ∧
    l.Clear.wf ∧
    (SLL.swap a b).1.wf ∧ (SLL.swap a b).2.wf ∧
    (SLL.assign a b).wf := by
  refine ⟨rfl, ?_, ?_, ?_, ?_, ?_, ?_, rfl, ?_, ?_, ?_⟩
  · rw [fromInitList_spec]; rfl
  · rw [fromCopy_spec]; rfl
  · simp only [SLL.wf, SLL.PushFront, List.length_cons] at hl ⊢
    omega
  · intro _
    simp only [SLL.wf, SLL.PopFront, List.length_tail] at hl ⊢
    omega
  · simp only [SLL.wf, SLL.InsertAfter, List.length_append, List.length_take,
      List.length_cons, List.length_drop] at hl ⊢
    omega
  · intro hklt
    simp only [SLL.wf, SLL.EraseAfter, List.length_eraseIdx, hklt, if_true] at hl ⊢
    omega
  · simpa [SLL.wf, SLL.swap] using hb
  · simpa [SLL.wf, SLL.swap] using ha
  · rw [assign_spec]; rfl

/-- Witness for C6 at the concrete lists `{1,2}`, `{}`, `{3}` with cursor 1. -/
theorem claim_C6_witness :
    (⟨[1, 2], 2⟩ : SLL).wf ∧ (⟨[], 0⟩ : SLL).wf ∧ (⟨[3], 1⟩ : SLL).wf ∧
    (1 : Nat) ≤ (⟨[1, 2], 2⟩ : SLL).elems.length ∧
    (SLL.mkEmpty.wf ∧
     (SLL.fromInitList [5]).wf ∧
     (SLL.fromCopy ⟨[1, 2], 2⟩).wf ∧
     ((⟨[1, 2], 2⟩ : SLL).PushFront 7).wf ∧
     ((⟨[1, 2], 2⟩ : SLL).elems ≠ [] → (⟨[1, 2], 2⟩ : SLL).PopFront.wf) ∧
     ((⟨[1, 2], 2⟩ : SLL).InsertAfter 1 7).wf ∧
     (1 < (⟨[1, 2], 2⟩ : SLL).elems.length → ((⟨[1, 2], 2⟩ : SLL).EraseAfter 1).wf) ∧
     (⟨[1, 2], 2⟩ : SLL).Clear.wf ∧
     (SLL.swap ⟨[], 0⟩ ⟨[3], 1⟩).1.wf ∧ (SLL.swap ⟨[], 0⟩ ⟨[3], 1⟩).2.wf ∧
     (SLL.assign ⟨[], 0⟩ ⟨[3], 1⟩).wf) :=
  ⟨rfl, rfl, rfl, by simp,
   claim_C6_size_invariant ⟨[1, 2], 2⟩ ⟨[], 0⟩ ⟨[3], 1⟩ [5] 7 1 rfl rfl rfl (by simp)⟩

end SingleLinkedList

namespace SingleLinkedList

/-! ## Heap-level model (claim C7: deep-copy independence)

Nodes live at explicit addresses, so that "the copy constructor allocates
fresh nodes and mutations of the copy never touch the original's nodes" is a
statement about stores, not a tautology of a value-level model. -/

/-- A heap node: the `value` and `next_node` members of `Node`; `none` is the
null next-link. -/
structure HNode where
  value : Int
  next : Option Nat

/-- The allocator state: `cnt` is the next fresh address (addresses are never
reused: `delete` invalidates an address but nothing reads it afterwards) and
`store` gives the node at each address. -/
structure Mem where
  cnt : Nat
  store : Nat → HNode

/-- An assignment through a node pointer: overwrite the node at address `a`. -/
def Mem.write (m : Mem) (a : Nat) (n : HNode) : Mem :=
  ⟨m.cnt, fun x => if x = a then n else m.store x⟩

/-- `new Node(...)`: the extended memory and the fresh address. -/
def Mem.alloc (m : Mem) (n : HNode) : Mem × Nat :=
  (⟨m.cnt + 1, fun x => if x = m.cnt then n else m.store x⟩, m.cnt)

/-- A list object at heap level: the sentinel's next-link (`head_.next_node`)
and the cached count (`size_`). -/
structure HList where
  head : Option Nat
  size : Nat

/-- `chainSeg m p as q`: starting from link `p` the chain visits exactly the
addresses `as` in order and exits with link `q` (the next-link of the last
visited node). -/
def chainSeg (m : Mem) : Option Nat → List Nat → Option Nat → Prop
  | p, [], q => p = q
  | p, a :: rest, q => p = some a ∧ chainSeg m (m.store a).next rest q

/-- The values stored at a list of addresses. -/
def readAddrs (m : Mem) (as : List Nat) : List Int :=
  as.map fun a => (m.store a).value

/-- Follow the chain from link `p` for at most `fuel` nodes, collecting values:
the sequence an iterator starting at `p` yields. -/
def readChain (m : Mem) : Option Nat → Nat → List Int
  | none, _ => []
  | some _, 0 => []
  | some a, fuel + 1 => (m.store a).value :: readChain m (m.store a).next fuel

/-- The element sequence of a heap-level list: iterate `size` steps from the
sentinel's next-link. -/
def HList.reads (m : Mem) (l : HList) : List Int := readChain m l.head l.size

/-- The address reached from link `p` after `i` advances (cursor resolution:
cursor `k + 1` of list `l` references the node at `nthAddr m l.head k`). -/
def nthAddr (m : Mem) : Option Nat → Nat → Option Nat
  | p, 0 => p
  | none, _ + 1 => none
  | some a, i + 1 => nthAddr m (m.store a).next i

/-- `PushFront` at heap level: allocate a node linked to the old first node,
make it the sentinel's successor, increment the count. -/
def hPush (m : Mem) (l : HList) (v : Int) : Mem × HList :=
  let r := m.alloc ⟨v, l.head⟩
  (r.1, ⟨some r.2, l.size + 1⟩)

/-- `PopFront` at heap level: unlink the first node; `delete` frees its
address, which is never read again, so no store write is needed.  Undefined on
an empty list in the source; modelled as a no-op there. -/
def hPop (m : Mem) (l : HList) : Mem × HList :=
  match l.head with
  | none => (m, l)
  | some a => (m, ⟨(m.store a).next, l.size - 1⟩)

/-- `InsertAfter` at heap level, the cursor given as a chain position
(`0` = sentinel): allocate the new node with the cursor node's old successor
as its next-link, then redirect the cursor node's next-link to it.  An
unresolvable cursor is undefined in the source; modelled as a no-op. -/
def hIns (m : Mem) (l : HList) (k : Nat) (v : Int) : Mem × HList :=
  match k with
  | 0 =>
      let r := m.alloc ⟨v, l.head⟩
      (r.1, ⟨some r.2, l.size + 1⟩)
  | k' + 1 =>
      match nthAddr m l.head k' with
      | none => (m, l)
      | some pa =>
          let r := m.alloc ⟨v, (m.store pa).next⟩
          (r.1.write pa ⟨(r.1.store pa).value, some r.2⟩, ⟨l.head, l.size + 1⟩)

/-- `EraseAfter` at heap level: redirect the cursor node's next-link past its
successor (whose address is freed and never read again).  Undefined when the
successor does not exist; modelled as a no-op. -/
def hDel (m : Mem) (l : HList) (k : Nat) : Mem × HList :=
  match k with
  | 0 =>
      match l.head with
      | none => (m, l)
      | some a => (m, ⟨(m.store a).next, l.size - 1⟩)
  | k' + 1 =>
      match nthAddr m l.head k' with
      | none => (m, l)
      | some pa =>
          match (m.store pa).next with
          | none => (m, l)
          | some b => (m.write pa ⟨(m.store pa).value, (m.store b).next⟩,
                       ⟨l.head, l.size - 1⟩)

/-- One mutation of a list object (the operations of claim C7). -/
inductive MutOp
  | push (v : Int)
  | pop
  | insertAfter (k : Nat) (v : Int)
  | eraseAfter (k : Nat)

/-- Apply one mutation at heap level. -/
def hStep (op : MutOp) (m : Mem) (l : HList) : Mem × HList :=
  match op with
  | .push v => hPush m l v
  | .pop => hPop m l
  | .insertAfter k v => hIns m l k v
  | .eraseAfter k => hDel m l k

/-- Apply a sequence of mutations to one list object. -/
def hSteps (ops : List MutOp) (m : Mem) (l : HList) : Mem × HList :=
  match ops with
  | [] => (m, l)
  | op :: rest => hSteps rest (hStep op m l).1 (hStep op m l).2

/-- The loop of `FillLinkedList_` at heap level: one fresh node per source
value; each node's next-link is filled in by the write through `node_ptr` of
the following iteration and the last node keeps the null link.  Returns the
head link of the fresh chain. -/
def hAllocChain (m : Mem) : List Int → Mem × Option Nat
  | [] => (m, none)
  | v :: rest =>
      let r := m.alloc ⟨v, none⟩
      let r2 := hAllocChain r.1 rest
      (r2.1.write r.2 ⟨v, r2.2⟩, some r.2)

/-- The copy constructor at heap level: `FillLinkedList_` over the sequence
iterated from `other`, swapped into the default-constructed `*this`. -/
def hCopy (m : Mem) (other : HList) : Mem × HList :=
  let r := hAllocChain m (HList.reads m other)
  (r.1, ⟨r.2, (HList.reads m other).length⟩)

/-- Well-formedness of a heap-level list, with its chain's address list made
explicit: the chain starts at the sentinel's next-link, visits `as` in order,
ends at the null link, has `size` nodes, repeats no address, and lies below
the allocation bound. -/
def Inv (m : Mem) (l : HList) (as : List Nat) : Prop :=
  chainSeg m l.head as none ∧ as.length = l.size ∧ as.Nodup ∧ ∀ a ∈ as, a < m.cnt

end SingleLinkedList

namespace SingleLinkedList

/-! ## Heap-level lemmas -/

@[simp] lemma chainSeg_nil (m : Mem) (p q : Option Nat) :
    chainSeg m p [] q ↔ p = q := Iff.rfl

@[simp] lemma chainSeg_cons (m : Mem) (p q : Option Nat) (a : Nat) (rest : List Nat) :
    chainSeg m p (a :: rest) q ↔ p = some a ∧ chainSeg m (m.store a).next rest q :=
  Iff.rfl

@[simp] lemma Mem.write_cnt (m : Mem) (a : Nat) (n : HNode) :
    (m.write a n).cnt = m.cnt := rfl

lemma Mem.write_store_ne (m : Mem) (a : Nat) (n : HNode) {x : Nat} (h : x ≠ a) :
    (m.write a n).store x = m.store x := by
  simp [Mem.write, h]

@[simp] lemma Mem.write_store_eq (m : Mem) (a : Nat) (n : HNode) :
    (m.write a n).store a = n := by
  simp [Mem.write]

lemma Mem.alloc_cnt (m : Mem) (n : HNode) : (m.alloc n).1.cnt = m.cnt + 1 := rfl

lemma Mem.alloc_addr (m : Mem) (n : HNode) : (m.alloc n).2 = m.cnt := rfl

lemma Mem.alloc_store_lt (m : Mem) (n : HNode) {x : Nat} (h : x < m.cnt) :
    (m.alloc n).1.store x = m.store x := by
  simp [Mem.alloc, Nat.ne_of_lt h]

@[simp] lemma Mem.alloc_store_new (m : Mem) (n : HNode) :
    (m.alloc n).1.store m.cnt = n := by
  simp [Mem.alloc]

@[simp] lemma readChain_none (m : Mem) (fuel : Nat) :
    readChain m none fuel = [] := by
  cases fuel <;> rfl

lemma chainSeg_congr {m m' : Mem} : ∀ (as : List Nat) (p q : Option Nat),
    (∀ a ∈ as, m'.store a = m.store a) → chainSeg m p as q → chainSeg m' p as q := by
  intro as
  induction as with
  | nil => intro p q _ h; exact h
  | cons a rest ih =>
      intro p q hagree h
      obtain ⟨hp, hrest⟩ := h
      refine ⟨hp, ?_⟩
      rw [hagree a (by simp)]
      exact ih _ _ (fun x hx => hagree x (by simp [hx])) hrest

lemma chainSeg_append {m : Mem} : ∀ (xs : List Nat) (ys : List Nat) (p q : Option Nat),
    chainSeg m p (xs ++ ys) q ↔ ∃ r, chainSeg m p xs r ∧ chainSeg m r ys q := by
  intro xs
  induction xs with
  | nil =>
      intro ys p q
      simp only [List.nil_append, chainSeg_nil]
      constructor
      · intro h
        exact ⟨p, rfl, h⟩
      · rintro ⟨r, hr, h⟩
        rw [hr]
        exact h
  | cons a rest ih =>
      intro ys p q
      rw [List.cons_append]
      simp only [chainSeg_cons]
      constructor
      · rintro ⟨hp, h⟩
        obtain ⟨r, h1, h2⟩ := (ih ys _ q).mp h
        exact ⟨r, ⟨hp, h1⟩, h2⟩
      · rintro ⟨r, ⟨hp, h1⟩, h2⟩
        exact ⟨hp, (ih ys _ q).mpr ⟨r, h1, h2⟩⟩

lemma readAddrs_congr {m m' : Mem} (as : List Nat)
    (h : ∀ a ∈ as, m'.store a = m.store a) :
    readAddrs m' as = readAddrs m as :=
  List.map_congr_left fun a ha => by rw [h a ha]

lemma chainSeg_readChain {m : Mem} : ∀ (as : List Nat) (p : Option Nat),
    chainSeg m p as none → readChain m p as.length = readAddrs m as := by
  intro as
  induction as with
  | nil =>
      intro p h
      have hp : p = none := h
      rw [hp]
      simp [readAddrs]
  | cons a rest ih =>
      intro p h
      obtain ⟨hp, hrest⟩ := h
      rw [hp]
      show (m.store a).value :: readChain m (m.store a).next rest.length = _
      rw [ih _ hrest]
      rfl

lemma chainSeg_nthAddr {m : Mem} : ∀ (as : List Nat) (p : Option Nat),
    chainSeg m p as none → ∀ i : Nat, nthAddr m p i = as.get? i := by
  intro as
  induction as with
  | nil =>
      intro p h i
      have hp : p = none := h
      rw [hp]
      cases i <;> rfl
  | cons a rest ih =>
      intro p h i
      obtain ⟨hp, hrest⟩ := h
      rw [hp]
      cases i with
      | zero => rfl
      | succ j => exact ih _ hrest j

lemma reads_congr {m m' : Mem} {A : HList} {as : List Nat}
    (hc : chainSeg m A.head as none) (hlen : as.length = A.size)
    (h : ∀ a ∈ as, m'.store a = m.store a) :
    HList.reads m' A = HList.reads m A := by
  unfold HList.reads
  rw [← hlen, chainSeg_readChain as A.head (chainSeg_congr as A.head none h hc),
    chainSeg_readChain as A.head hc]
  exact readAddrs_congr as h

end SingleLinkedList

namespace SingleLinkedList

/-- `hAllocChain` builds a fresh, duplicate-free chain holding exactly the
source values, entirely inside the newly allocated address range, and leaves
every previously allocated address untouched. -/
lemma hAllocChain_spec : ∀ (vs : List Int) (m : Mem),
    ∃ as : List Nat,
      chainSeg (hAllocChain m vs).1 (hAllocChain m vs).2 as none ∧
      readAddrs (hAllocChain m vs).1 as = vs ∧
      as.length = vs.length ∧ as.Nodup ∧
      (∀ a ∈ as, m.cnt ≤ a ∧ a < (hAllocChain m vs).1.cnt) ∧
      (hAllocChain m vs).1.cnt = m.cnt + vs.length ∧
      (∀ x, x < m.cnt → (hAllocChain m vs).1.store x = m.store x) := by
  intro vs
  induction vs with
  | nil =>
      intro m
      refine ⟨[], rfl, rfl, rfl, List.nodup_nil, by simp, by simp [hAllocChain], fun x _ => rfl⟩
  | cons v rest ih =>
      intro m
      obtain ⟨M2, p2, hM2⟩ :
          ∃ M2 p2, hAllocChain (m.alloc ⟨v, none⟩).1 rest = (M2, p2) := ⟨_, _, rfl⟩
      have e : hAllocChain m (v :: rest) =
          ((hAllocChain (m.alloc ⟨v, none⟩).1 rest).1.write (m.alloc ⟨v, none⟩).2
            ⟨v, (hAllocChain (m.alloc ⟨v, none⟩).1 rest).2⟩,
           some (m.alloc ⟨v, none⟩).2) := rfl
      rw [hM2, Mem.alloc_addr] at e
      obtain ⟨as', hseg, hread, hlen, hnd, hbound, hcnt, hframe⟩ := ih (m.alloc ⟨v, none⟩).1
      rw [hM2] at hseg hread hbound hcnt hframe
      dsimp only at hseg hread hbound hcnt hframe
      have hm1cnt : (m.alloc ⟨v, none⟩).1.cnt = m.cnt + 1 := rfl
      rw [hm1cnt] at hbound hcnt
      have hge : ∀ a ∈ as', m.cnt + 1 ≤ a := fun a ha => (hbound a ha).1
      have hne : ∀ a ∈ as', a ≠ m.cnt := fun a ha => by
        have := hge a ha
        omega
      have hagree : ∀ a ∈ as', (M2.write m.cnt ⟨v, p2⟩).store a = M2.store a :=
        fun a ha => Mem.write_store_ne M2 m.cnt ⟨v, p2⟩ (hne a ha)
      have hstore : (M2.write m.cnt ⟨v, p2⟩).store m.cnt = ⟨v, p2⟩ :=
        Mem.write_store_eq M2 m.cnt ⟨v, p2⟩
      rw [e]
      dsimp only
      refine ⟨m.cnt :: as', ⟨rfl, ?_⟩, ?_, ?_, ?_, ?_, ?_, ?_⟩
      · rw [hstore]
        exact chainSeg_congr as' p2 none hagree hseg
      · show ((M2.write m.cnt ⟨v, p2⟩).store m.cnt).value
            :: readAddrs (M2.write m.cnt ⟨v, p2⟩) as' = v :: rest
        rw [hstore, readAddrs_congr as' hagree, hread]
      · simp [hlen]
      · exact List.nodup_cons.mpr ⟨fun hmem => absurd rfl (hne m.cnt hmem), hnd⟩
      · intro a ha
        rcases List.mem_cons.mp ha with h | h
        · rw [h]
          refine ⟨le_refl _, ?_⟩
          show m.cnt < M2.cnt
          omega
        · have h1 := hge a h
          have h2 := (hbound a h).2
          exact ⟨by omega, h2⟩
      · show M2.cnt = m.cnt + (v :: rest).length
        rw [hcnt]
        simp [Nat.add_comm, Nat.add_assoc, Nat.add_left_comm]
      · intro x hx
        have hxne : x ≠ m.cnt := Nat.ne_of_lt hx
        rw [Mem.write_store_ne M2 m.cnt ⟨v, p2⟩ hxne, hframe x (by omega)]
        exact Mem.alloc_store_lt m ⟨v, none⟩ hx

end SingleLinkedList

namespace SingleLinkedList

/-- Splitting a well-formed chain at the node of cursor position `k + 1`: the
chain decomposes into the prefix before `pa`, the node `pa` itself, and the
suffix hanging off `pa`'s next-link; with no duplicate addresses, `pa` occurs
in neither part. -/
lemma chain_split {m : Mem} {p : Option Nat} {as : List Nat} {k : Nat} {pa : Nat}
    (hcs : chainSeg m p as none) (hnd : as.Nodup) (hget : as.get? k = some pa) :
    as = as.take k ++ pa :: as.drop (k + 1) ∧
    chainSeg m p (as.take k) (some pa) ∧
    chainSeg m (m.store pa).next (as.drop (k + 1)) none ∧
    pa ∉ as.take k ∧ pa ∉ as.drop (k + 1) ∧ (as.take k).length = k := by
  have hget' : as[k]? = some pa := by
    rw [← List.get?_eq_getElem? as k]
    exact hget
  obtain ⟨hk, _⟩ := List.getElem?_eq_some_iff.mp hget'
  have hdec : as = as.take k ++ pa :: as.drop (k + 1) := by
    conv_lhs => rw [← List.take_append_drop (k + 1) as, List.take_succ, hget']
    simp
  have hsplit : chainSeg m p ((as.take k ++ [pa]) ++ as.drop (k + 1)) none := by
    have h := hcs
    rw [hdec] at h
    simpa using h
  obtain ⟨r1, h01, h2⟩ :=
    (chainSeg_append (as.take k ++ [pa]) (as.drop (k + 1)) p none).mp hsplit
  obtain ⟨r0, h0, hpa1⟩ := (chainSeg_append (as.take k) [pa] p r1).mp h01
  obtain ⟨hr0, hnext⟩ := hpa1
  have hnext' : (m.store pa).next = r1 := hnext
  rw [hr0] at h0
  have hnd2 : (as.take k ++ (pa :: as.drop (k + 1))).Nodup := by
    rw [← hdec]
    exact hnd
  obtain ⟨_, hnd4, hdisj⟩ := List.nodup_append.mp hnd2
  have hpa_take : pa ∉ as.take k := fun hmem => hdisj hmem (by simp)
  have hpa_drop : pa ∉ as.drop (k + 1) := (List.nodup_cons.mp hnd4).1
  have htk : (as.take k).length = k := by
    rw [List.length_take]
    omega
  refine ⟨hdec, h0, ?_, hpa_take, hpa_drop, htk⟩
  rw [hnext']
  exact h2

/-- What one mutation of the list owning the chain `asB` guarantees: the
result is again a well-formed chain, the allocation bound does not decrease,
every address of the new chain is an old one or freshly allocated, and every
address outside `asB` and below the old allocation bound is untouched. -/
def StepOk (m : Mem) (asB : List Nat) (r : Mem × HList) : Prop :=
  ∃ asB', Inv r.1 r.2 asB' ∧
    m.cnt ≤ r.1.cnt ∧
    (∀ a ∈ asB', a ∈ asB ∨ m.cnt ≤ a) ∧
    (∀ x, x < m.cnt → x ∉ asB → r.1.store x = m.store x)

/-- `PushFront` satisfies the mutation contract. -/
lemma hPush_ok {m : Mem} {B : HList} {asB : List Nat} (v : Int)
    (hB : Inv m B asB) : StepOk m asB (hPush m B v) := by
  obtain ⟨hcs, hlen, hnd, hbound⟩ := hB
  have hag : ∀ a ∈ asB, (m.alloc ⟨v, B.head⟩).1.store a = m.store a :=
    fun a ha => Mem.alloc_store_lt m _ (hbound a ha)
  have e : hPush m B v = ((m.alloc ⟨v, B.head⟩).1, ⟨some m.cnt, B.size + 1⟩) := rfl
  rw [e]
  refine ⟨m.cnt :: asB, ⟨⟨rfl, ?_⟩, ?_, ?_, ?_⟩, ?_, ?_, ?_⟩
  · rw [show (m.alloc ⟨v, B.head⟩).1.store m.cnt = ⟨v, B.head⟩ from
      Mem.alloc_store_new m _]
    exact chainSeg_congr asB B.head none hag hcs
  · show (m.cnt :: asB).length = B.size + 1
    simp [hlen]
  · exact List.nodup_cons.mpr ⟨fun h => absurd (hbound _ h) (lt_irrefl _), hnd⟩
  · intro a ha
    show a < m.cnt + 1
    rcases List.mem_cons.mp ha with h | h
    · omega
    · have := hbound a h
      omega
  · show m.cnt ≤ m.cnt + 1
    omega
  · intro a ha
    rcases List.mem_cons.mp ha with h | h
    · exact Or.inr (h ▸ le_refl _)
    · exact Or.inl h
  · intro x hx _
    exact Mem.alloc_store_lt m _ hx

/-- `PopFront` satisfies the mutation contract. -/
lemma hPop_ok {m : Mem} {B : HList} {asB : List Nat}
    (hB : Inv m B asB) : StepOk m asB (hPop m B) := by
  obtain ⟨hcs, hlen, hnd, hbound⟩ := hB
  cases asB with
  | nil =>
      have hh : B.head = none := hcs
      have e : hPop m B = (m, B) := by
        unfold hPop
        rw [hh]
      rw [e]
      exact ⟨[], ⟨hcs, hlen, hnd, hbound⟩, le_refl _, fun a ha => Or.inl ha,
        fun _ _ _ => rfl⟩
  | cons a rest =>
      obtain ⟨hpa, hrest⟩ := hcs
      have hlen' : rest.length + 1 = B.size := by simpa using hlen
      have e : hPop m B = (m, ⟨(m.store a).next, B.size - 1⟩) := by
        unfold hPop
        rw [hpa]
      rw [e]
      refine ⟨rest, ⟨hrest, ?_, (List.nodup_cons.mp hnd).2,
        fun x hx => hbound x (List.mem_cons_of_mem a hx)⟩,
        le_refl _, fun x hx => Or.inl (List.mem_cons_of_mem a hx), fun _ _ _ => rfl⟩
      show rest.length = B.size - 1
      omega

end SingleLinkedList

namespace SingleLinkedList

/-- `InsertAfter` satisfies the mutation contract. -/
lemma hIns_ok {m : Mem} {B : HList} {asB : List Nat} (k : Nat) (v : Int)
    (hB : Inv m B asB) : StepOk m asB (hIns m B k v) := by
  obtain ⟨hcs, hlen, hnd, hbound⟩ := hB
  cases k with
  | zero =>
      have e : hIns m B 0 v = hPush m B v := rfl
      rw [e]
      exact hPush_ok v ⟨hcs, hlen, hnd, hbound⟩
  | succ k' =>
      have hnth : nthAddr m B.head k' = asB.get? k' := chainSeg_nthAddr asB B.head hcs k'
      cases hna : nthAddr m B.head k' with
      | none =>
          have e : hIns m B (k' + 1) v = (m, B) := by
            simp only [hIns]
            rw [hna]
          rw [e]
          exact ⟨asB, ⟨hcs, hlen, hnd, hbound⟩, le_refl _, fun a ha => Or.inl ha,
            fun _ _ _ => rfl⟩
      | some pa =>
          have hget : asB.get? k' = some pa := by rw [← hnth, hna]
          obtain ⟨hdec, hpre, hpost, hnpre, hnpost, htk⟩ := chain_split hcs hnd hget
          have hpam : pa ∈ asB := List.get?_mem hget
          have hpalt : pa < m.cnt := hbound pa hpam
          have hpane : pa ≠ m.cnt := Nat.ne_of_lt hpalt
          have hklt : k' < asB.length := by
            have h' : asB[k']? = some pa := by
              rw [← List.get?_eq_getElem? asB k']
              exact hget
            exact (List.getElem?_eq_some_iff.mp h').1
          have e : hIns m B (k' + 1) v =
              ((m.alloc ⟨v, (m.store pa).next⟩).1.write pa
                 ⟨((m.alloc ⟨v, (m.store pa).next⟩).1.store pa).value, some m.cnt⟩,
               ⟨B.head, B.size + 1⟩) := by
            simp only [hIns]
            rw [hna]
            rfl
          rw [e]
          set m1 := (m.alloc ⟨v, (m.store pa).next⟩).1 with hm1
          set m2 := m1.write pa ⟨(m1.store pa).value, some m.cnt⟩ with hm2
          have hag : ∀ a, a ≠ pa → a < m.cnt → m2.store a = m.store a := by
            intro a hne hlt
            rw [hm2, Mem.write_store_ne m1 pa _ hne, hm1]
            exact Mem.alloc_store_lt m _ hlt
          have hpa2 : m2.store pa = ⟨(m.store pa).value, some m.cnt⟩ := by
            rw [hm2, Mem.write_store_eq, hm1,
              show m1.store pa = m.store pa from Mem.alloc_store_lt m _ hpalt]
          have hc2 : m2.store m.cnt = ⟨v, (m.store pa).next⟩ := by
            rw [hm2, Mem.write_store_ne m1 pa _ (Ne.symm hpane), hm1]
            exact Mem.alloc_store_new m _
          have hdec' : asB = asB.take k' ++ pa :: asB.drop (k' + 1) := hdec
          have h1 : List.Perm (asB.take k' ++ pa :: m.cnt :: asB.drop (k' + 1))
              (asB.take k' ++ m.cnt :: pa :: asB.drop (k' + 1)) :=
            List.Perm.append_left _ (List.Perm.swap m.cnt pa _)
          have h2 : List.Perm (asB.take k' ++ m.cnt :: pa :: asB.drop (k' + 1))
              (m.cnt :: (asB.take k' ++ pa :: asB.drop (k' + 1))) := List.perm_middle
          have hperm : List.Perm (asB.take k' ++ pa :: m.cnt :: asB.drop (k' + 1))
              (m.cnt :: asB) := by
            have h3 := h1.trans h2
            rw [← hdec'] at h3
            exact h3
          refine ⟨asB.take k' ++ pa :: m.cnt :: asB.drop (k' + 1),
            ⟨?_, ?_, ?_, ?_⟩, ?_, ?_, ?_⟩
          · apply (chainSeg_append (asB.take k') (pa :: m.cnt :: asB.drop (k' + 1))
              B.head none).mpr
            refine ⟨some pa, ?_, ?_⟩
            · apply chainSeg_congr (asB.take k') B.head (some pa) ?_ hpre
              intro a ha
              exact hag a (fun h => hnpre (h ▸ ha)) (hbound a (List.take_subset k' asB ha))
            · refine ⟨rfl, ?_⟩
              rw [hpa2]
              refine ⟨rfl, ?_⟩
              rw [hc2]
              apply chainSeg_congr _ _ _ ?_ hpost
              intro a ha
              exact hag a (fun h => hnpost (h ▸ ha)) (hbound a (List.drop_subset (k' + 1) asB ha))
          · show (asB.take k' ++ pa :: m.cnt :: asB.drop (k' + 1)).length = B.size + 1
            simp only [List.length_append, List.length_cons, List.length_take,
              List.length_drop]
            omega
          · exact hperm.symm.nodup
              (List.nodup_cons.mpr ⟨fun h => absurd (hbound _ h) (lt_irrefl _), hnd⟩)
          · intro a ha
            show a < m.cnt + 1
            rcases List.mem_cons.mp (hperm.mem_iff.mp ha) with h | h
            · omega
            · have := hbound a h
              omega
          · show m.cnt ≤ m.cnt + 1
            omega
          · intro a ha
            rcases List.mem_cons.mp (hperm.mem_iff.mp ha) with h | h
            · exact Or.inr (h ▸ le_refl _)
            · exact Or.inl h
          · intro x hx hxnot
            exact hag x (fun h => hxnot (h ▸ hpam)) hx

end SingleLinkedList

namespace SingleLinkedList

/-- `EraseAfter` satisfies the mutation contract. -/
lemma hDel_ok {m : Mem} {B : HList} {asB : List Nat} (k : Nat)
    (hB : Inv m B asB) : StepOk m asB (hDel m B k) := by
  obtain ⟨hcs, hlen, hnd, hbound⟩ := hB
  cases k with
  | zero =>
      cases asB with
      | nil =>
          have hh : B.head = none := hcs
          have e : hDel m B 0 = (m, B) := by
            simp only [hDel]
            rw [hh]
          rw [e]
          exact ⟨[], ⟨hcs, hlen, hnd, hbound⟩, le_refl _, fun a ha => Or.inl ha,
            fun _ _ _ => rfl⟩
      | cons a rest =>
          obtain ⟨hpa, hrest⟩ := hcs
          have hlen' : rest.length + 1 = B.size := by simpa using hlen
          have e : hDel m B 0 = (m, ⟨(m.store a).next, B.size - 1⟩) := by
            simp only [hDel]
            rw [hpa]
          rw [e]
          refine ⟨rest, ⟨hrest, ?_, (List.nodup_cons.mp hnd).2,
            fun x hx => hbound x (List.mem_cons_of_mem a hx)⟩,
            le_refl _, fun x hx => Or.inl (List.mem_cons_of_mem a hx), fun _ _ _ => rfl⟩
          show rest.length = B.size - 1
          omega
  | succ k' =>
      have hnth : nthAddr m B.head k' = asB.get? k' := chainSeg_nthAddr asB B.head hcs k'
      cases hna : nthAddr m B.head k' with
      | none =>
          have e : hDel m B (k' + 1) = (m, B) := by
            simp only [hDel]
            rw [hna]
          rw [e]
          exact ⟨asB, ⟨hcs, hlen, hnd, hbound⟩, le_refl _, fun a ha => Or.inl ha,
            fun _ _ _ => rfl⟩
      | some pa =>
          have hget : asB.get? k' = some pa := by rw [← hnth, hna]
          obtain ⟨hdec, hpre, hpost, hnpre, hnpost, htk⟩ := chain_split hcs hnd hget
          have hpam : pa ∈ asB := List.get?_mem hget
          cases hdrop : asB.drop (k' + 1) with
          | nil =>
              rw [hdrop] at hpost
              have hnx : (m.store pa).next = none := hpost
              have e : hDel m B (k' + 1) = (m, B) := by
                simp only [hDel]
                simp only [hna]
                simp only [hnx]
              rw [e]
              exact ⟨asB, ⟨hcs, hlen, hnd, hbound⟩, le_refl _, fun a ha => Or.inl ha,
                fun _ _ _ => rfl⟩
          | cons b rest2 =>
              rw [hdrop] at hpost hnpost
              obtain ⟨hnb, hrest2⟩ := hpost
              have e : hDel m B (k' + 1) =
                  (m.write pa ⟨(m.store pa).value, (m.store b).next⟩,
                   ⟨B.head, B.size - 1⟩) := by
                simp only [hDel]
                simp only [hna]
                simp only [hnb]
              rw [e]
              set m' := m.write pa ⟨(m.store pa).value, (m.store b).next⟩ with hm'
              have hag : ∀ a, a ≠ pa → m'.store a = m.store a := fun a hne => by
                rw [hm', Mem.write_store_ne m pa _ hne]
              have hpa' : m'.store pa = ⟨(m.store pa).value, (m.store b).next⟩ := by
                rw [hm', Mem.write_store_eq]
              have hdec2 : asB = asB.take k' ++ pa :: b :: rest2 := by
                have h := hdec
                rw [hdrop] at h
                exact h
              have hsub : List.Sublist (asB.take k' ++ pa :: rest2) asB := by
                conv_rhs => rw [hdec2]
                exact ((List.sublist_cons_self b rest2).cons₂ pa).append_left _
              refine ⟨asB.take k' ++ pa :: rest2, ⟨?_, ?_, ?_, ?_⟩, le_refl _, ?_, ?_⟩
              · apply (chainSeg_append (asB.take k') (pa :: rest2) B.head none).mpr
                refine ⟨some pa, ?_, ?_⟩
                · apply chainSeg_congr (asB.take k') B.head (some pa) ?_ hpre
                  intro a ha
                  exact hag a (fun h => hnpre (h ▸ ha))
                · refine ⟨rfl, ?_⟩
                  rw [hpa']
                  apply chainSeg_congr _ _ _ ?_ hrest2
                  intro a ha
                  exact hag a (fun h => hnpost (h ▸ List.mem_cons_of_mem b ha))
              · show (asB.take k' ++ pa :: rest2).length = B.size - 1
                have hlen2 : asB.length = B.size := hlen
                have h2 : (asB.take k' ++ pa :: b :: rest2).length = asB.length := by
                  rw [← hdec2]
                simp only [List.length_append, List.length_cons] at h2 ⊢
                omega
              · exact hnd.sublist hsub
              · intro a ha
                show a < m.cnt
                exact hbound a (hsub.subset ha)
              · intro a ha
                exact Or.inl (hsub.subset ha)
              · intro x hx hxnot
                exact hag x (fun h => hxnot (h ▸ hpam))

/-- Every mutation satisfies the contract. -/
lemma hStep_ok (op : MutOp) {m : Mem} {B : HList} {asB : List Nat}
    (hB : Inv m B asB) : StepOk m asB (hStep op m B) := by
  cases op with
  | push v => exact hPush_ok v hB
  | pop => exact hPop_ok hB
  | insertAfter k v => exact hIns_ok k v hB
  | eraseAfter k => exact hDel_ok k hB

/-- Frame: any single mutation of `B` leaves a disjoint well-formed list `A`
intact — its chain, its readout, and the disjointness itself survive. -/
lemma stepOk_frame {m : Mem} {A : HList} {asA asB : List Nat} {r : Mem × HList}
    (hA : Inv m A asA) (hd : ∀ a ∈ asA, a ∉ asB) (hok : StepOk m asB r) :
    Inv r.1 A asA ∧ HList.reads r.1 A = HList.reads m A ∧
    ∃ asB', Inv r.1 r.2 asB' ∧ (∀ a ∈ asA, a ∉ asB') := by
  obtain ⟨hcsA, hlenA, hndA, hboundA⟩ := hA
  obtain ⟨asB', hInvB, hcle, hmem, hframe⟩ := hok
  have hagA : ∀ a ∈ asA, r.1.store a = m.store a :=
    fun a ha => hframe a (hboundA a ha) (hd a ha)
  refine ⟨⟨chainSeg_congr asA A.head none hagA hcsA, hlenA, hndA,
    fun a ha => lt_of_lt_of_le (hboundA a ha) hcle⟩,
    reads_congr hcsA hlenA hagA, asB', hInvB, ?_⟩
  intro a ha hmem'
  rcases hmem a hmem' with h | h
  · exact hd a ha h
  · exact absurd (hboundA a ha) (not_lt.mpr h)

/-- Frame for mutation sequences: however the list owning `asB` is mutated,
the readout of a disjoint well-formed list `A` never changes. -/
lemma hSteps_frame : ∀ (ops : List MutOp) (m : Mem) (A B : HList)
    (asA asB : List Nat), Inv m A asA → Inv m B asB → (∀ a ∈ asA, a ∉ asB) →
    HList.reads (hSteps ops m B).1 A = HList.reads m A := by
  intro ops
  induction ops with
  | nil =>
      intro m A B asA asB _ _ _
      rfl
  | cons op rest ih =>
      intro m A B asA asB hA hB hd
      obtain ⟨hA', hreads, asB', hB', hd'⟩ := stepOk_frame hA hd (hStep_ok op hB)
      have e : hSteps (op :: rest) m B
          = hSteps rest (hStep op m B).1 (hStep op m B).2 := rfl
      rw [e, ih (hStep op m B).1 A (hStep op m B).2 asA asB' hA' hB' hd', hreads]

end SingleLinkedList

namespace SingleLinkedList

/-- Claim C7: a copy produced by the copy constructor reads back exactly the
original's sequence with the same size, so the two lists compare equal under
`operator==`; because every node of the copy is freshly allocated, any
sequence of mutations (push/pop/insert/erase) applied to the copy leaves the
original's sequence unchanged, and any sequence applied to the original leaves
the copy's sequence unchanged; copy assignment (copy-and-swap) gives the
target the source's sequence and count, and self-assignment returns the list
unchanged. -/
theorem claim_C7_deep_copy_independence (m : Mem) (A : HList) (asA : List Nat)
    (hA : Inv m A asA) :
    HList.reads (hCopy m A).1 (hCopy m A).2 = HList.reads m A ∧
    (hCopy m A).2.size = A.size ∧
    cppEqual (HList.reads (hCopy m A).1 A)
      (HList.reads (hCopy m A).1 (hCopy m A).2) = some true ∧
    (∀ ops : List MutOp,
      HList.reads (hSteps ops (hCopy m A).1 (hCopy m A).2).1 A = HList.reads m A) ∧
    (∀ ops : List MutOp,
      HList.reads (hSteps ops (hCopy m A).1 A).1 (hCopy m A).2
        = HList.reads (hCopy m A).1 (hCopy m A).2) ∧
    (∀ x y : SLL, (SLL.assign x y).iterSeq = y.iterSeq ∧
      (SLL.assign x y).GetSize = y.elems.length) ∧
    (∀ x : SLL, SLL.assignSelf x = x) := by
  obtain ⟨hcsA, hlenA, hndA, hboundA⟩ := hA
  obtain ⟨asB, hsegB, hreadB, hlenB, hndB, hboundB, hcntB, hframeB⟩ :=
    hAllocChain_spec (HList.reads m A) m
  have hreadsA : HList.reads m A = readAddrs m asA := by
    unfold HList.reads
    rw [← hlenA]
    exact chainSeg_readChain asA A.head hcsA
  have lenReads : (HList.reads m A).length = A.size := by
    rw [hreadsA]
    unfold readAddrs
    rw [List.length_map]
    exact hlenA
  have hagA : ∀ a ∈ asA, (hAllocChain m (HList.reads m A)).1.store a = m.store a :=
    fun a ha => hframeB a (hboundA a ha)
  have readsA1 : HList.reads (hAllocChain m (HList.reads m A)).1 A = HList.reads m A :=
    reads_congr hcsA hlenA hagA
  have hInvA1 : Inv (hAllocChain m (HList.reads m A)).1 A asA := by
    refine ⟨chainSeg_congr asA A.head none hagA hcsA, hlenA, hndA, ?_⟩
    intro a ha
    have h1 := hboundA a ha
    rw [hcntB]
    omega
  have hInvB1 : Inv (hAllocChain m (HList.reads m A)).1
      ⟨(hAllocChain m (HList.reads m A)).2, (HList.reads m A).length⟩ asB := by
    refine ⟨hsegB, hlenB, hndB, ?_⟩
    intro a ha
    exact (hboundB a ha).2
  have hreadsB : HList.reads (hAllocChain m (HList.reads m A)).1
      ⟨(hAllocChain m (HList.reads m A)).2, (HList.reads m A).length⟩
      = HList.reads m A := by
    unfold HList.reads
    show readChain (hAllocChain m (HList.reads m A)).1
      (hAllocChain m (HList.reads m A)).2 (HList.reads m A).length = _
    rw [← hlenB, chainSeg_readChain asB (hAllocChain m (HList.reads m A)).2 hsegB]
    exact hreadB
  have hdAB : ∀ a ∈ asA, a ∉ asB :=
    fun a ha hmem => absurd (hboundA a ha) (not_lt.mpr (hboundB a hmem).1)
  have hdBA : ∀ a ∈ asB, a ∉ asA :=
    fun a ha hmem => absurd (hboundA a hmem) (not_lt.mpr (hboundB a ha).1)
  refine ⟨hreadsB, lenReads, ?_, ?_, ?_, ?_, fun x => rfl⟩
  · show cppEqual (HList.reads (hAllocChain m (HList.reads m A)).1 A)
      (HList.reads (hAllocChain m (HList.reads m A)).1
        ⟨(hAllocChain m (HList.reads m A)).2, (HList.reads m A).length⟩) = some true
    rw [readsA1, hreadsB]
    exact cppEqual_self (HList.reads m A)
  · intro ops
    show HList.reads (hSteps ops (hAllocChain m (HList.reads m A)).1
      ⟨(hAllocChain m (HList.reads m A)).2, (HList.reads m A).length⟩).1 A
      = HList.reads m A
    rw [hSteps_frame ops (hAllocChain m (HList.reads m A)).1 A
      ⟨(hAllocChain m (HList.reads m A)).2, (HList.reads m A).length⟩ asA asB
      hInvA1 hInvB1 hdAB]
    exact readsA1
  · intro ops
    show HList.reads (hSteps ops (hAllocChain m (HList.reads m A)).1 A).1
      ⟨(hAllocChain m (HList.reads m A)).2, (HList.reads m A).length⟩
      = HList.reads (hAllocChain m (HList.reads m A)).1
        ⟨(hAllocChain m (HList.reads m A)).2, (HList.reads m A).length⟩
    exact hSteps_frame ops (hAllocChain m (HList.reads m A)).1
      ⟨(hAllocChain m (HList.reads m A)).2, (HList.reads m A).length⟩ A asB asA
      hInvB1 hInvA1 hdBA
  · intro x y
    rw [assign_spec]
    exact ⟨rfl, rfl⟩

/-- Witness for C7 at a concrete one-node heap list holding the value 5. -/
theorem claim_C7_witness :
    Inv ⟨1, fun a => if a = 0 then ⟨5, none⟩ else ⟨0, none⟩⟩ ⟨some 0, 1⟩ [0] ∧
    HList.reads
        (hCopy ⟨1, fun a => if a = 0 then ⟨5, none⟩ else ⟨0, none⟩⟩ ⟨some 0, 1⟩).1
        (hCopy ⟨1, fun a => if a = 0 then ⟨5, none⟩ else ⟨0, none⟩⟩ ⟨some 0, 1⟩).2
      = HList.reads ⟨1, fun a => if a = 0 then ⟨5, none⟩ else ⟨0, none⟩⟩ ⟨some 0, 1⟩ :=
  have hInv : Inv ⟨1, fun a => if a = 0 then ⟨5, none⟩ else ⟨0, none⟩⟩ ⟨some 0, 1⟩ [0] :=
    ⟨⟨rfl, rfl⟩, rfl, List.nodup_singleton 0, by decide⟩
  ⟨hInv, (claim_C7_deep_copy_independence _ _ [0] hInv).1⟩

end SingleLinkedList
